import Mathlib

/-!
Verification of the numeric core of the subspace library.

The signed integer types of the library (i8/i16/i32/i64, declared through the
macros of src/num/__private/signed_integer_macros.h) are embedded shallowly:
a value of the B-bit signed type is an integer a with MIN B <= a <= MAX B,
operations that can panic return an Option (none = panic), and the casts
between the signed type and its matching unsigned type are expressed with
arithmetic modulo 2 ^ B.  C++ division truncates toward zero, which is
Int.tdiv / Int.tmod.

Intrinsics living in num/__private/intrinsics.h are not part of the sources
at hand; where a claim depends on one, it is modelled from the spec and its
doc comment says so.
-/

namespace Subspace

/-- Minimum value of the B-bit signed integer type, the MIN() constant
produced by _sus__signed_constants. -/
def MIN (B : ℕ) : ℤ := -(2 ^ (B - 1))

/-- Maximum value of the B-bit signed integer type, the MAX() constant
produced by _sus__signed_constants. -/
def MAX (B : ℕ) : ℤ := 2 ^ (B - 1) - 1

/-- Representable values of the B-bit signed integer type. -/
def InRange (B : ℕ) (a : ℤ) : Prop := MIN B ≤ a ∧ a ≤ MAX B

instance (B : ℕ) (a : ℤ) : Decidable (InRange B a) :=
  inferInstanceAs (Decidable (MIN B ≤ a ∧ a ≤ MAX B))

/-- Cast of a signed value to the matching unsigned type
(static_cast of UnsignedT in the C++ sources): reduction modulo 2 ^ B. -/
def toUnsigned (B : ℕ) (a : ℤ) : ℤ := a % 2 ^ B

/-- Cast of an unsigned (or wider) value back to the signed type
(static_cast of primitive_type in the C++ sources): two's-complement
reinterpretation of the value modulo 2 ^ B. -/
def wrap (B : ℕ) (x : ℤ) : ℤ := (x + 2 ^ (B - 1)) % 2 ^ B - 2 ^ (B - 1)

theorem two_pow_split {B : ℕ} (hB : 0 < B) : (2 : ℤ) ^ B = 2 ^ (B - 1) + 2 ^ (B - 1) := by
  obtain ⟨m, rfl⟩ : ∃ m, B = m + 1 := ⟨B - 1, (Nat.succ_pred_eq_of_pos hB).symm⟩
  rw [pow_succ]
  ring_nf
  simp

theorem wrap_eq_self {B : ℕ} (hB : 0 < B) {a : ℤ} (h : InRange B a) : wrap B a = a := by
  obtain ⟨h1, h2⟩ := h
  unfold MIN at h1
  unfold MAX at h2
  have hlt : a + 2 ^ (B - 1) < 2 ^ B := by
    rw [two_pow_split hB]; linarith
  have hge : 0 ≤ a + 2 ^ (B - 1) := by linarith
  unfold wrap
  rw [Int.emod_eq_of_lt hge hlt]
  ring

/- Truncated remainder characterization lemmas shared by the division
claims.  Int.tmod is the remainder of C++ signed division. -/

theorem tmod_neg_left (a b : ℤ) : (-a).tmod b = -(a.tmod b) := by
  rw [Int.tmod_def, Int.tmod_def, Int.neg_tdiv]
  ring

theorem tmod_eq_tmod_abs (a b : ℤ) : a.tmod b = a.tmod |b| := by
  rcases abs_choice b with h | h
  · rw [h]
  · rw [h, Int.tmod_neg]

theorem tmod_abs_bounds (a : ℤ) {b : ℤ} (hb : b ≠ 0) :
    -|b| < a.tmod b ∧ a.tmod b < |b| := by
  have hbpos : 0 < |b| := abs_pos.mpr hb
  rw [tmod_eq_tmod_abs]
  refine ⟨?_, Int.tmod_lt_of_pos a hbpos⟩
  rcases le_or_lt 0 a with ha | ha
  · have := Int.tmod_nonneg |b| ha
    linarith
  · have h1 : a.tmod |b| = -((-a).tmod |b|) := by
      rw [tmod_neg_left]; ring
    have h2 : (-a).tmod |b| < |b| := Int.tmod_lt_of_pos (-a) hbpos
    linarith

theorem tmod_nonpos_of_nonpos {a : ℤ} (b : ℤ) (ha : a ≤ 0) : a.tmod b ≤ 0 := by
  have h1 : a.tmod b = -((-a).tmod b) := by rw [tmod_neg_left]; ring
  have h2 : 0 ≤ (-a).tmod b := Int.tmod_nonneg b (by linarith)
  linarith

/- C3 definitions: the neg family from _sus__signed_unary_ops and
_sus__signed_neg in src/num/__private/signed_integer_macros.h. -/

/-- Unary operator- of a signed type: sus::check that the value is not MIN
(panic modelled as none), then the exact negation. -/
def op_neg (B : ℕ) (a : ℤ) : Option ℤ :=
  if a ≠ MIN B then some (-a) else none

/-- Checked negation: computes -self, returning none if self == MIN. -/
def checked_neg (B : ℕ) (a : ℤ) : Option ℤ :=
  if a ≠ MIN B then some (-a) else none

/-- Overflowing negation: the negated value with an overflow flag, returning
(MIN, true) on MIN. -/
def overflowing_neg (B : ℕ) (a : ℤ) : ℤ × Bool :=
  if a ≠ MIN B then (-a, false) else (MIN B, true)

/-- Saturating negation: -self, or MAX when self == MIN. -/
def saturating_neg (B : ℕ) (a : ℤ) : ℤ :=
  if a ≠ MIN B then -a else MAX B

/-- Wrapping negation: -self, or MIN itself when self == MIN. -/
def wrapping_neg (B : ℕ) (a : ℤ) : ℤ :=
  if a ≠ MIN B then -a else MIN B

/-- Claim C3: negating MIN is the single overflow case of the neg family.
The default unary minus panics exactly on MIN and returns the exact negation
elsewhere; checked_neg MIN is none; wrapping_neg MIN == MIN;
saturating_neg MIN == MAX; away from MIN all variants agree on -a. -/
theorem neg_family_min_only_overflow (B : ℕ) (a : ℤ) :
    (op_neg B a = none ↔ a = MIN B) ∧
    checked_neg B (MIN B) = none ∧
    wrapping_neg B (MIN B) = MIN B ∧
    saturating_neg B (MIN B) = MAX B ∧
    (a ≠ MIN B →
      op_neg B a = some (-a) ∧ checked_neg B a = some (-a) ∧
      wrapping_neg B a = -a ∧ saturating_neg B a = -a ∧
      overflowing_neg B a = (-a, false)) := by
  refine ⟨?_, ?_, ?_, ?_, ?_⟩
  · unfold op_neg
    by_cases h : a = MIN B <;> simp [h]
  · simp [checked_neg]
  · simp [wrapping_neg]
  · simp [saturating_neg]
  · intro h
    simp [op_neg, checked_neg, wrapping_neg, saturating_neg, overflowing_neg, h]

/-- Witness for C3 at the 8-bit type: a = 17 is not MIN, and the family
agrees on -17 there. -/
theorem neg_family_min_only_overflow_witness :
    (17 : ℤ) ≠ MIN 8 ∧ op_neg 8 17 = some (-17) ∧ wrapping_neg 8 17 = -17 :=
  ⟨by decide, ((neg_family_min_only_overflow 8 17).2.2.2.2 (by decide)).1,
    ((neg_family_min_only_overflow 8 17).2.2.2.2 (by decide)).2.2.1⟩

/- C5 definitions: unsigned_abs from _sus__signed_abs. -/

/-- Computes unsigned_abs: for a nonnegative value the cast to the matching
unsigned type, otherwise the cast of -(a + 1) plus one, all unsigned
arithmetic being modulo 2 ^ B. -/
def unsigned_abs (B : ℕ) (a : ℤ) : ℤ :=
  if 0 ≤ a then a % 2 ^ B
  else ((-(a + 1)) % 2 ^ B + 1) % 2 ^ B

/-- Claim C5: unsigned_abs returns the exact absolute value for every
representable a, including MIN, and the result always fits the matching
unsigned type, so no overflow or panic can occur. -/
theorem unsigned_abs_exact (B : ℕ) (a : ℤ) (hB : 0 < B) (h : InRange B a) :
    unsigned_abs B a = |a| ∧ 0 ≤ unsigned_abs B a ∧ unsigned_abs B a < 2 ^ B := by
  obtain ⟨h1, h2⟩ := h
  unfold MIN at h1
  unfold MAX at h2
  have hsplit := two_pow_split hB
  have hp : (0 : ℤ) < 2 ^ (B - 1) := by positivity
  unfold unsigned_abs
  rcases le_or_lt 0 a with ha | ha
  · rw [if_pos ha, Int.emod_eq_of_lt ha (by linarith), abs_of_nonneg ha]
    refine ⟨rfl, ha, by linarith⟩
  · rw [if_neg (by linarith)]
    have hin : (0 : ℤ) ≤ -(a + 1) := by linarith
    have hin2 : -(a + 1) < 2 ^ B := by linarith
    rw [Int.emod_eq_of_lt hin hin2]
    have hfin : -(a + 1) + 1 = -a := by ring
    rw [hfin, Int.emod_eq_of_lt (by linarith) (by linarith), abs_of_neg ha]
    refine ⟨rfl, by linarith, by linarith⟩

/-- Witness for C5 at the 8-bit type and its extreme value MIN = -128. -/
theorem unsigned_abs_exact_witness :
    0 < 8 ∧ InRange 8 (-128) ∧
      (unsigned_abs 8 (-128) = |(-128 : ℤ)| ∧ 0 ≤ unsigned_abs 8 (-128) ∧
        unsigned_abs 8 (-128) < 2 ^ 8) :=
  ⟨by decide, by decide, unsigned_abs_exact 8 (-128) (by decide) (by decide)⟩

/- C2 definitions: operator/, operator% from _sus__signed_binary_logic_ops
and wrapping_div / wrapping_rem from _sus__signed_div / _sus__signed_rem.
The div_overflows / div_overflows_nonzero intrinsics are not in the sources
at hand and are modelled from the spec. -/

/-- Modelled from the spec: the missing __private::div_overflows intrinsic;
section 4.1 defines it to return true iff b == 0 or (a == MIN and b == -1). -/
def div_overflows (B : ℕ) (a b : ℤ) : Prop := b = 0 ∨ (a = MIN B ∧ b = -1)

instance (B : ℕ) (a b : ℤ) : Decidable (div_overflows B a b) :=
  inferInstanceAs (Decidable (b = 0 ∨ (a = MIN B ∧ b = -1)))

/-- Modelled from the spec: the missing __private::div_overflows_nonzero
intrinsic, the divisor already known nonzero, so true iff a == MIN and
b == -1. -/
def div_overflows_nonzero (B : ℕ) (a b : ℤ) : Prop := a = MIN B ∧ b = -1

instance (B : ℕ) (a b : ℤ) : Decidable (div_overflows_nonzero B a b) :=
  inferInstanceAs (Decidable (a = MIN B ∧ b = -1))

/-- Default operator/ of a signed type: sus::check that the divisor is
nonzero, sus::check that (a, b) is not (MIN, -1), then C++ truncated
division. -/
def op_div (B : ℕ) (a b : ℤ) : Option ℤ :=
  if b ≠ 0 then
    if a ≠ MIN B ∨ b ≠ -1 then some (a.tdiv b) else none
  else none

/-- Default operator% of a signed type: the same checks as operator/, then
the C++ truncated remainder. -/
def op_rem (B : ℕ) (a b : ℤ) : Option ℤ :=
  if b ≠ 0 then
    if a ≠ MIN B ∨ b ≠ -1 then some (a.tmod b) else none
  else none

/-- Wrapping division: sus::check that the divisor is nonzero (panic
modelled as none), then MIN for the wrapped MIN / -1 case, and the plain
truncated quotient otherwise. -/
def wrapping_div (B : ℕ) (a b : ℤ) : Option ℤ :=
  if b ≠ 0 then
    if div_overflows_nonzero B a b then some (MIN B) else some (a.tdiv b)
  else none

/-- Wrapping remainder: sus::check that the divisor is nonzero, then 0 for
the MIN % -1 case, and the plain truncated remainder otherwise. -/
def wrapping_rem (B : ℕ) (a b : ℤ) : Option ℤ :=
  if b ≠ 0 then
    if div_overflows_nonzero B a b then some 0 else some (a.tmod b)
  else none

/-- Claim C2: the default division and remainder operators panic exactly
when b == 0 or (a, b) == (MIN, -1); wrapping_div MIN -1 gives MIN,
wrapping_rem MIN -1 gives 0, and on every other pair with b nonzero the
wrapping variants return the exact truncated quotient and remainder,
characterized by a == q * b + r with the remainder smaller than the divisor
in magnitude and carrying the sign of the dividend. -/
theorem div_rem_panics_and_wrapping (B : ℕ) (a b : ℤ) :
    (op_div B a b = none ↔ b = 0 ∨ (a = MIN B ∧ b = -1)) ∧
    (op_rem B a b = none ↔ b = 0 ∨ (a = MIN B ∧ b = -1)) ∧
    wrapping_div B (MIN B) (-1) = some (MIN B) ∧
    wrapping_rem B (MIN B) (-1) = some 0 ∧
    (b ≠ 0 → ¬(a = MIN B ∧ b = -1) →
      ∃ q r, wrapping_div B a b = some q ∧ wrapping_rem B a b = some r ∧
        a = q * b + r ∧ |r| < |b| ∧ (r = 0 ∨ r.sign = a.sign)) := by
  refine ⟨?_, ?_, ?_, ?_, ?_⟩
  · unfold op_div
    by_cases hb : b = 0
    · simp [hb]
    · by_cases hmin : a = MIN B ∧ b = -1
      · simp [hb, hmin.1, hmin.2]
      · rw [not_and_or] at hmin
        simp [hb, hmin]
        intro h1 h2
        cases hmin with
        | inl h => exact absurd h1 h
        | inr h => exact absurd h2 h
  · unfold op_rem
    by_cases hb : b = 0
    · simp [hb]
    · by_cases hmin : a = MIN B ∧ b = -1
      · simp [hb, hmin.1, hmin.2]
      · rw [not_and_or] at hmin
        simp [hb, hmin]
        intro h1 h2
        cases hmin with
        | inl h => exact absurd h1 h
        | inr h => exact absurd h2 h
  · simp [wrapping_div, div_overflows_nonzero]
  · simp [wrapping_rem, div_overflows_nonzero]
  · intro hb hmin
    refine ⟨a.tdiv b, a.tmod b, ?_, ?_, ?_, ?_, ?_⟩
    · simp [wrapping_div, hb, div_overflows_nonzero, hmin]
    · simp [wrapping_rem, hb, div_overflows_nonzero, hmin]
    · have := Int.tdiv_add_tmod a b
      linarith [this, mul_comm b (a.tdiv b)]
    · exact abs_lt.mpr (tmod_abs_bounds a hb)
    · rcases lt_trichotomy a 0 with ha | ha | ha
      · by_cases hz : a.tmod b = 0
        · exact Or.inl hz
        · refine Or.inr ?_
          have h1 : a.tmod b ≤ 0 := tmod_nonpos_of_nonpos b (le_of_lt ha)
          rw [Int.sign_eq_neg_one_of_neg (lt_of_le_of_ne h1 hz),
            Int.sign_eq_neg_one_of_neg ha]
      · subst ha
        exact Or.inl (Int.zero_tmod b)
      · by_cases hz : a.tmod b = 0
        · exact Or.inl hz
        · refine Or.inr ?_
          have h1 : 0 ≤ a.tmod b := Int.tmod_nonneg b (le_of_lt ha)
          rw [Int.sign_eq_one_of_pos (lt_of_le_of_ne h1 (Ne.symm hz)),
            Int.sign_eq_one_of_pos ha]

/-- Witness for C2 at the 8-bit type with a = -7, b = 3: no panic, and the
wrapping variants deliver quotient -2 and remainder -1. -/
theorem div_rem_panics_and_wrapping_witness :
    (3 : ℤ) ≠ 0 ∧ ¬((-7 : ℤ) = MIN 8 ∧ (3 : ℤ) = -1) ∧
      (∃ q r, wrapping_div 8 (-7) 3 = some q ∧ wrapping_rem 8 (-7) 3 = some r ∧
        (-7 : ℤ) = q * 3 + r ∧ |r| < |(3 : ℤ)| ∧
        (r = 0 ∨ r.sign = (-7 : ℤ).sign)) :=
  ⟨by decide, by decide,
    (div_rem_panics_and_wrapping 8 (-7) 3).2.2.2.2 (by decide) (by decide)⟩

/- C6 definitions: div_euclid / rem_euclid from _sus__signed_euclid.  The
__private::div_euclid and __private::rem_euclid intrinsics are not in the
sources at hand and are modelled from the spec. -/

/-- Modelled from the spec: the missing __private::div_euclid intrinsic.
Section 4.3 defines the quotient by the identity a = q * b + r with
0 <= r < |b|; the algorithm is the one the sources write out for the float
div_euclid: the truncated quotient, corrected by one step when the truncated
remainder is negative. -/
def div_euclid_prim (a b : ℤ) : ℤ :=
  if a.tmod b < 0 then
    if 0 < b then a.tdiv b - 1 else a.tdiv b + 1
  else a.tdiv b

/-- Modelled from the spec: the missing __private::rem_euclid intrinsic; the
truncated remainder, shifted by |b| into the nonnegative range when
negative, as the sources write out for the float rem_euclid. -/
def rem_euclid_prim (a b : ℤ) : ℤ :=
  if a.tmod b < 0 then a.tmod b + |b| else a.tmod b

/-- Euclidean division from _sus__signed_euclid:
sus::check(!div_overflows(a, b)) (panic modelled as none), then the
intrinsic quotient. -/
def div_euclid (B : ℕ) (a b : ℤ) : Option ℤ :=
  if div_overflows B a b then none else some (div_euclid_prim a b)

/-- Euclidean remainder from _sus__signed_euclid: the same check, then the
intrinsic remainder. -/
def rem_euclid (B : ℕ) (a b : ℤ) : Option ℤ :=
  if div_overflows B a b then none else some (rem_euclid_prim a b)

/-- Claim C6: div_euclid and rem_euclid panic exactly when b == 0 or
(a, b) == (MIN, -1), and otherwise return q and r with a == q * b + r and
0 <= r < |b|. -/
theorem euclid_division_identity (B : ℕ) (a b : ℤ) :
    (div_euclid B a b = none ↔ b = 0 ∨ (a = MIN B ∧ b = -1)) ∧
    (rem_euclid B a b = none ↔ b = 0 ∨ (a = MIN B ∧ b = -1)) ∧
    (b ≠ 0 → ¬(a = MIN B ∧ b = -1) →
      ∃ q r, div_euclid B a b = some q ∧ rem_euclid B a b = some r ∧
        a = q * b + r ∧ 0 ≤ r ∧ r < |b|) := by
  refine ⟨?_, ?_, ?_⟩
  · unfold div_euclid div_overflows
    by_cases h : b = 0 ∨ (a = MIN B ∧ b = -1) <;> simp [h]
  · unfold rem_euclid div_overflows
    by_cases h : b = 0 ∨ (a = MIN B ∧ b = -1) <;> simp [h]
  · intro hb hmin
    have hov : ¬div_overflows B a b := by
      unfold div_overflows
      push_neg
      exact ⟨hb, fun h1 h2 => hmin ⟨h1, h2⟩⟩
    refine ⟨div_euclid_prim a b, rem_euclid_prim a b, by simp [div_euclid, hov],
      by simp [rem_euclid, hov], ?_, ?_, ?_⟩
    · have hid := Int.tdiv_add_tmod a b
      unfold div_euclid_prim rem_euclid_prim
      by_cases hneg : a.tmod b < 0
      · rw [if_pos hneg, if_pos hneg]
        rcases lt_trichotomy 0 b with hbpos | hbz | hbneg
        · rw [if_pos hbpos, abs_of_pos hbpos]
          linarith [mul_comm b (a.tdiv b)]
        · exact absurd hbz.symm hb
        · rw [if_neg (by linarith), abs_of_neg hbneg]
          linarith [mul_comm b (a.tdiv b)]
      · rw [if_neg hneg, if_neg hneg]
        linarith [mul_comm b (a.tdiv b)]
    · unfold rem_euclid_prim
      by_cases hneg : a.tmod b < 0
      · rw [if_pos hneg]
        linarith [(tmod_abs_bounds a hb).1]
      · rw [if_neg hneg]
        linarith
    · unfold rem_euclid_prim
      by_cases hneg : a.tmod b < 0
      · rw [if_pos hneg]
        linarith
      · rw [if_neg hneg]
        exact (tmod_abs_bounds a hb).2

/-- Witness for C6 at the 8-bit type with a = -7, b = -3: quotient 3 and
remainder 2 satisfy the Euclidean identity. -/
theorem euclid_division_identity_witness :
    (-3 : ℤ) ≠ 0 ∧ ¬((-7 : ℤ) = MIN 8 ∧ (-3 : ℤ) = -1) ∧
      (∃ q r, div_euclid 8 (-7) (-3) = some q ∧ rem_euclid 8 (-7) (-3) = some r ∧
        (-7 : ℤ) = q * (-3) + r ∧ 0 ≤ r ∧ r < |(-3 : ℤ)|) :=
  ⟨by decide, by decide,
    (euclid_division_identity 8 (-7) (-3)).2.2 (by decide) (by decide)⟩

/- C4 definitions: operator<< / operator>> from _sus__signed_binary_bit_ops
and the wrapping shifts from _sus__signed_shift.  The shl_with_overflow and
shr_with_overflow intrinsics are not in the sources at hand and are modelled
from the spec. -/

/-- Machine shift left on the B-bit type as written in operator<<: the value
cast to the matching unsigned type, shifted by s, and cast back to the
signed primitive. -/
def machine_shl (B : ℕ) (a : ℤ) (s : ℕ) : ℤ := wrap B (toUnsigned B a * 2 ^ s)

/-- Machine logical shift right on the B-bit type as written in operator>>:
the unsigned cast divided by 2 ^ s and cast back to the signed primitive. -/
def machine_shr (B : ℕ) (a : ℤ) (s : ℕ) : ℤ := wrap B (toUnsigned B a / 2 ^ s)

/-- Default operator<<: sus::check(rhs < BITS()) (panic modelled as none),
then the machine shift. -/
def op_shl (B : ℕ) (a : ℤ) (rhs : ℕ) : Option ℤ :=
  if rhs < B then some (machine_shl B a rhs) else none

/-- Default operator>>: sus::check(rhs < BITS()), then the machine shift. -/
def op_shr (B : ℕ) (a : ℤ) (rhs : ℕ) : Option ℤ :=
  if rhs < B then some (machine_shr B a rhs) else none

/-- Modelled from the spec: the missing __private::shl_with_overflow
intrinsic; the overflow flag is rhs >= BITS, and the value shifts by rhs
reduced modulo the bit width. -/
def shl_with_overflow (B : ℕ) (a : ℤ) (rhs : ℕ) : ℤ × Bool :=
  (machine_shl B a (rhs % B), decide (B ≤ rhs))

/-- Modelled from the spec: the missing __private::shr_with_overflow
intrinsic; as for shl_with_overflow with a right shift. -/
def shr_with_overflow (B : ℕ) (a : ℤ) (rhs : ℕ) : ℤ × Bool :=
  (machine_shr B a (rhs % B), decide (B ≤ rhs))

/-- Wrapping shift left from _sus__signed_shift: the value component of
shl_with_overflow. -/
def wrapping_shl (B : ℕ) (a : ℤ) (rhs : ℕ) : ℤ := (shl_with_overflow B a rhs).1

/-- Wrapping shift right from _sus__signed_shift: the value component of
shr_with_overflow. -/
def wrapping_shr (B : ℕ) (a : ℤ) (rhs : ℕ) : ℤ := (shr_with_overflow B a rhs).1

/-- Claim C4: a shift overflows exactly when rhs >= BITS; the default shift
operators panic exactly then and otherwise execute the machine shift with an
amount strictly below the bit width; the wrapping shifts always use the
amount reduced modulo the bit width, which is strictly below it. -/
theorem shift_amount_guarded (B : ℕ) (a : ℤ) (rhs : ℕ) (hB : 0 < B) :
    (op_shl B a rhs = none ↔ B ≤ rhs) ∧
    (op_shr B a rhs = none ↔ B ≤ rhs) ∧
    (∀ v, op_shl B a rhs = some v → rhs < B ∧ v = machine_shl B a rhs) ∧
    (∀ v, op_shr B a rhs = some v → rhs < B ∧ v = machine_shr B a rhs) ∧
    wrapping_shl B a rhs = machine_shl B a (rhs % B) ∧
    wrapping_shr B a rhs = machine_shr B a (rhs % B) ∧
    rhs % B < B := by
  refine ⟨?_, ?_, ?_, ?_, rfl, rfl, Nat.mod_lt _ hB⟩
  · unfold op_shl
    by_cases h : rhs < B
    · simp [h]
    · simp [h]
      omega
  · unfold op_shr
    by_cases h : rhs < B
    · simp [h]
    · simp [h]
      omega
  · intro v hv
    unfold op_shl at hv
    by_cases h : rhs < B
    · rw [if_pos h] at hv
      exact ⟨h, (Option.some_injective _ hv).symm⟩
    · rw [if_neg h] at hv
      exact absurd hv (by simp)
  · intro v hv
    unfold op_shr at hv
    by_cases h : rhs < B
    · rw [if_pos h] at hv
      exact ⟨h, (Option.some_injective _ hv).symm⟩
    · rw [if_neg h] at hv
      exact absurd hv (by simp)

/-- Witness for C4 at the 32-bit type: a shift amount of 33 overflows, the
default operator panics, and wrapping_shl behaves as a shift by 1, so
wrapping_shl 1 by 33 gives 2. -/
theorem shift_amount_guarded_witness :
    (op_shl 32 1 33 = none ↔ 32 ≤ 33) ∧ wrapping_shl 32 1 33 = machine_shl 32 1 (33 % 32) ∧
      wrapping_shl 32 1 33 = 2 :=
  ⟨(shift_amount_guarded 32 1 33 (by decide)).1,
    (shift_amount_guarded 32 1 33 (by decide)).2.2.2.2.1, by decide⟩

/- C7 definitions: the from() conversions of _sus__signed_from, and the
spec-modelled conversions of the unsigned destination types whose code is
not among the sources at hand. -/

/-- Representable values of the B-bit unsigned integer type. -/
def UInRange (B : ℕ) (u : ℤ) : Prop := 0 ≤ u ∧ u ≤ 2 ^ B - 1

instance (B : ℕ) (u : ℤ) : Decidable (UInRange B u) :=
  inferInstanceAs (Decidable (0 ≤ u ∧ u ≤ 2 ^ B - 1))

/-- Conversion of a Bs-bit signed source into the Bd-bit signed destination,
from _sus__signed_from: a runtime lower-bound sus::check exactly when the
destination MIN exceeds the source MIN, an upper-bound check exactly when
the destination MAX is below the source MAX, then static_cast to the
destination primitive. -/
def from_signed (Bd Bs : ℕ) (s : ℤ) : Option ℤ :=
  if MIN Bs < MIN Bd ∧ s < MIN Bd then none
  else if MAX Bd < MAX Bs ∧ MAX Bd < s then none
  else some (wrap Bd s)

/-- Conversion of a Bs-bit unsigned source into the Bd-bit signed
destination, from _sus__signed_from: umax is the destination MAX cast to the
source unsigned type, and a runtime check against it is emitted exactly when
it is below the source maximum. -/
def from_unsigned (Bd Bs : ℕ) (u : ℤ) : Option ℤ :=
  if MAX Bd % 2 ^ Bs < 2 ^ Bs - 1 ∧ MAX Bd % 2 ^ Bs < u then none
  else some (wrap Bd u)

/-- Modelled from the spec: the from() conversion of the Bd-bit unsigned
destination type (its code is not among the sources at hand) from a Bs-bit
signed source; per section 4.2 the compile-time bound comparison emits the
lower check exactly when the source MIN is below the destination minimum 0,
and the upper check exactly when the source MAX exceeds the destination
maximum, panicking on a violated check. -/
def unsigned_from_signed (Bd Bs : ℕ) (s : ℤ) : Option ℤ :=
  if MIN Bs < 0 ∧ s < 0 then none
  else if (2 ^ Bd - 1 : ℤ) < MAX Bs ∧ (2 ^ Bd - 1 : ℤ) < s then none
  else some (s % 2 ^ Bd)

/-- Modelled from the spec: the from() conversion of the Bd-bit unsigned
destination type from a Bs-bit unsigned source; only the upper bound can
need a runtime check, emitted exactly when the source maximum exceeds the
destination maximum. -/
def unsigned_from_unsigned (Bd Bs : ℕ) (u : ℤ) : Option ℤ :=
  if (2 ^ Bd - 1 : ℤ) < 2 ^ Bs - 1 ∧ (2 ^ Bd - 1 : ℤ) < u then none
  else some (u % 2 ^ Bd)

theorem two_pow_le_two_pow {x y : ℕ} (h : x ≤ y) : (2 : ℤ) ^ x ≤ 2 ^ y :=
  pow_le_pow_right₀ (by norm_num) h

/-- Helper for the unsigned-source conversion: the destination MAX reduced
into the source unsigned type is the full source maximum when the source
width fits, and MAX itself (then strictly below the source maximum)
otherwise. -/
theorem max_emod_cases (Bd Bs : ℕ) (hd : 0 < Bd) (_hs : 0 < Bs) :
    (Bs ≤ Bd - 1 ∧ MAX Bd % 2 ^ Bs = 2 ^ Bs - 1) ∨
    (Bd - 1 < Bs ∧ MAX Bd % 2 ^ Bs = MAX Bd ∧ MAX Bd < 2 ^ Bs - 1) := by
  rcases le_or_lt Bs (Bd - 1) with h | h
  · refine Or.inl ⟨h, ?_⟩
    have hsplit : MAX Bd = (2 ^ Bs - 1) + 2 ^ Bs * (2 ^ (Bd - 1 - Bs) - 1) := by
      unfold MAX
      have : (2 : ℤ) ^ Bs * 2 ^ (Bd - 1 - Bs) = 2 ^ (Bd - 1) := by
        rw [← pow_add]
        congr 1
        omega
      linarith [this]
    have h1 : (1 : ℤ) ≤ 2 ^ Bs := one_le_pow₀ (by norm_num)
    rw [hsplit, Int.add_mul_emod_self_left,
      Int.emod_eq_of_lt (by linarith) (by linarith)]
  · have hlt : MAX Bd < 2 ^ Bs - 1 := by
      unfold MAX
      have : (2 : ℤ) ^ (Bd - 1) < 2 ^ Bs := by
        calc (2 : ℤ) ^ (Bd - 1) < 2 ^ (Bd - 1) * 2 := by nlinarith [pow_pos (by norm_num : (0:ℤ) < 2) (Bd - 1)]
        _ = 2 ^ (Bd - 1 + 1) := by rw [pow_succ]
        _ ≤ 2 ^ Bs := two_pow_le_two_pow (by omega)
      linarith
    refine Or.inr ⟨h, ?_, hlt⟩
    have h0 : (0 : ℤ) ≤ MAX Bd := by
      unfold MAX
      have : (1 : ℤ) ≤ 2 ^ (Bd - 1) := one_le_pow₀ (by norm_num)
      linarith
    exact Int.emod_eq_of_lt h0 (by linarith)

/-- Claim C7: each conversion panics exactly when the runtime value is
outside the destination range, and otherwise preserves the value; the
statically elided checks never change this. -/
theorem from_conversion_range_checked (Bd Bs : ℕ) (hd : 0 < Bd) (hs : 0 < Bs) (v : ℤ) :
    (InRange Bs v →
      (from_signed Bd Bs v = none ↔ ¬InRange Bd v) ∧
      (InRange Bd v → from_signed Bd Bs v = some v)) ∧
    (UInRange Bs v →
      (from_unsigned Bd Bs v = none ↔ ¬InRange Bd v) ∧
      (InRange Bd v → from_unsigned Bd Bs v = some v)) ∧
    (InRange Bs v →
      (unsigned_from_signed Bd Bs v = none ↔ ¬UInRange Bd v) ∧
      (UInRange Bd v → unsigned_from_signed Bd Bs v = some v)) ∧
    (UInRange Bs v →
      (unsigned_from_unsigned Bd Bs v = none ↔ ¬UInRange Bd v) ∧
      (UInRange Bd v → unsigned_from_unsigned Bd Bs v = some v)) := by
  have hpowd : (0 : ℤ) < 2 ^ (Bd - 1) := by positivity
  have hmindz : MIN Bd < 0 := by unfold MIN; linarith
  have hmaxd0 : (0 : ℤ) ≤ MAX Bd := by
    unfold MAX
    have : (1 : ℤ) ≤ 2 ^ (Bd - 1) := one_le_pow₀ (by norm_num)
    linarith
  refine ⟨?_, ?_, ?_, ?_⟩
  · intro hv
    obtain ⟨hv1, hv2⟩ := hv
    refine ⟨⟨?_, ?_⟩, ?_⟩
    · intro hnone
      unfold from_signed at hnone
      by_cases h1 : MIN Bs < MIN Bd ∧ v < MIN Bd
      · intro hr
        exact absurd hr.1 (not_le.mpr h1.2)
      · rw [if_neg h1] at hnone
        by_cases h2 : MAX Bd < MAX Bs ∧ MAX Bd < v
        · intro hr
          exact absurd hr.2 (not_le.mpr h2.2)
        · rw [if_neg h2] at hnone
          exact absurd hnone (by simp)
    · intro hr
      unfold InRange at hr
      rw [not_and_or] at hr
      push_neg at hr
      unfold from_signed
      rcases hr with hlow | hhigh
      · rw [if_pos ⟨by linarith, hlow⟩]
      · by_cases h1 : MIN Bs < MIN Bd ∧ v < MIN Bd
        · rw [if_pos h1]
        · rw [if_neg h1, if_pos ⟨by linarith, hhigh⟩]
    · intro hr
      unfold from_signed
      rw [if_neg (fun h => absurd hr.1 (not_le.mpr h.2)),
        if_neg (fun h => absurd hr.2 (not_le.mpr h.2)), wrap_eq_self hd hr]
  · intro hv
    obtain ⟨hv0, hvs⟩ := hv
    rcases max_emod_cases Bd Bs hd hs with ⟨hfits, hmax⟩ | ⟨hbig, hmax, hstrict⟩
    · have hvmax : v ≤ MAX Bd := by
        have : (2 : ℤ) ^ Bs ≤ 2 ^ (Bd - 1) := two_pow_le_two_pow hfits
        unfold MAX
        linarith
      have hcheck : ¬(MAX Bd % 2 ^ Bs < 2 ^ Bs - 1 ∧ MAX Bd % 2 ^ Bs < v) := by
        rw [hmax]
        rintro ⟨h, -⟩
        exact lt_irrefl _ h
      refine ⟨⟨?_, ?_⟩, ?_⟩
      · intro hnone
        unfold from_unsigned at hnone
        rw [if_neg hcheck] at hnone
        exact absurd hnone (by simp)
      · intro hr
        exact absurd ⟨by linarith, hvmax⟩ hr
      · intro _
        unfold from_unsigned
        rw [if_neg hcheck, wrap_eq_self hd ⟨by linarith, hvmax⟩]
    · refine ⟨⟨?_, ?_⟩, ?_⟩
      · intro hnone
        unfold from_unsigned at hnone
        rw [hmax] at hnone
        by_cases h2 : MAX Bd < 2 ^ Bs - 1 ∧ MAX Bd < v
        · intro hr
          exact absurd hr.2 (not_le.mpr h2.2)
        · rw [if_neg h2] at hnone
          exact absurd hnone (by simp)
      · intro hr
        unfold InRange at hr
        rw [not_and_or] at hr
        push_neg at hr
        unfold from_unsigned
        rw [hmax]
        rcases hr with h | h
        · exact absurd hv0 (not_le.mpr (by linarith))
        · rw [if_pos ⟨hstrict, h⟩]
      · intro hr
        unfold from_unsigned
        rw [hmax, if_neg (fun hh => absurd hr.2 (not_le.mpr hh.2)),
          wrap_eq_self hd hr]
  · intro hv
    obtain ⟨hv1, hv2⟩ := hv
    have hminneg : MIN Bs < 0 := by
      unfold MIN
      have : (0 : ℤ) < 2 ^ (Bs - 1) := by positivity
      linarith
    refine ⟨⟨?_, ?_⟩, ?_⟩
    · intro hnone
      unfold unsigned_from_signed at hnone
      by_cases h1 : MIN Bs < 0 ∧ v < 0
      · intro hr
        exact absurd hr.1 (not_le.mpr h1.2)
      · rw [if_neg h1] at hnone
        by_cases h2 : (2 ^ Bd - 1 : ℤ) < MAX Bs ∧ (2 ^ Bd - 1 : ℤ) < v
        · intro hr
          exact absurd hr.2 (not_le.mpr h2.2)
        · rw [if_neg h2] at hnone
          exact absurd hnone (by simp)
    · intro hr
      unfold UInRange at hr
      rw [not_and_or] at hr
      push_neg at hr
      unfold unsigned_from_signed
      rcases hr with h | h
      · rw [if_pos ⟨hminneg, h⟩]
      · by_cases h1 : MIN Bs < 0 ∧ v < 0
        · rw [if_pos h1]
        · rw [if_neg h1, if_pos ⟨by linarith, h⟩]
    · intro hr
      unfold unsigned_from_signed
      rw [if_neg (fun h => absurd hr.1 (not_le.mpr h.2)),
        if_neg (fun h => absurd hr.2 (not_le.mpr h.2)),
        Int.emod_eq_of_lt hr.1 (by linarith [hr.2])]
  · intro hv
    obtain ⟨hv0, hvs⟩ := hv
    refine ⟨⟨?_, ?_⟩, ?_⟩
    · intro hnone
      unfold unsigned_from_unsigned at hnone
      by_cases h2 : (2 ^ Bd - 1 : ℤ) < 2 ^ Bs - 1 ∧ (2 ^ Bd - 1 : ℤ) < v
      · intro hr
        exact absurd hr.2 (not_le.mpr h2.2)
      · rw [if_neg h2] at hnone
        exact absurd hnone (by simp)
    · intro hr
      unfold UInRange at hr
      rw [not_and_or] at hr
      push_neg at hr
      unfold unsigned_from_unsigned
      rcases hr with h | h
      · exact absurd hv0 (not_le.mpr h)
      · rw [if_pos ⟨by linarith, h⟩]
    · intro hr
      unfold unsigned_from_unsigned
      rw [if_neg (fun h => absurd hr.2 (not_le.mpr h.2)),
        Int.emod_eq_of_lt hr.1 (by linarith [hr.2])]


/-- Witness for C7: converting the 16-bit signed value 300 to the 8-bit
signed type panics since 300 > 127, while converting it to the 16-bit
unsigned type succeeds and preserves the value. -/
theorem from_conversion_range_checked_witness :
    InRange 16 300 ∧ (from_signed 8 16 300 = none ↔ ¬InRange 8 300) ∧
      UInRange 16 300 ∧ unsigned_from_unsigned 16 16 300 = some 300 :=
  ⟨by decide, ((from_conversion_range_checked 8 16 (by decide) (by decide) 300).1 (by decide)).1,
    by decide,
    ((from_conversion_range_checked 16 16 (by decide) (by decide) 300).2.2.2 (by decide)).2 (by decide)⟩

/- C1 definitions: to_ne_bytes / from_ne_bytes from _sus__signed_endian.
Both functions have two branches; the memcpy branch copies the object
representation (on a little-endian host, the little-endian byte
decomposition), while the is_constant_evaluated branch recomputes it in a
loop.  Both branches of both functions are embedded. -/

/-- Little-endian byte decomposition of an unsigned value into n bytes.
On a little-endian host this is what the memcpy branch of to_ne_bytes
copies, and also exactly what its constant-evaluated loop stores: byte i is
uval brought down by 8 * i bit positions, masked to the low eight bits. -/
def toBytesLE (n : ℕ) (u : ℕ) : List ℕ :=
  (List.range n).map fun i => u / 2 ^ (8 * i) % 256

/-- Reassembly of an unsigned value from little-endian bytes; what the
memcpy branch of from_ne_bytes computes on a little-endian host. -/
def fromBytesLE : List ℕ → ℕ
  | [] => 0
  | b :: rest => b + 256 * fromBytesLE rest

/-- Reassembly as written in the is_constant_evaluated branch of
from_ne_bytes: byte i is ORed in after a left shift by sizeof(T) - 1 - i. -/
def fromBytesCE (n : ℕ) (bytes : List ℕ) : ℕ :=
  (List.range n).foldl (fun val i => val ||| (bytes.getD i 0 <<< (n - 1 - i))) 0

/-- Serialization to_ne_bytes of a B-bit signed value on a little-endian
host: the unsigned cast decomposed into B / 8 bytes. -/
def to_ne_bytes (B : ℕ) (a : ℤ) : List ℕ := toBytesLE (B / 8) (toUnsigned B a).toNat

/-- Deserialization from_ne_bytes, memcpy branch, on a little-endian host:
the little-endian recomposition cast to the signed primitive. -/
def from_ne_bytes (B : ℕ) (bytes : List ℕ) : ℤ := wrap B (fromBytesLE bytes)

/-- Deserialization from_ne_bytes, is_constant_evaluated branch: the loop
recomposition cast to the signed primitive. -/
def from_ne_bytes_ce (B : ℕ) (bytes : List ℕ) : ℤ := wrap B (fromBytesCE (B / 8) bytes)

theorem toBytesLE_succ (n u : ℕ) :
    toBytesLE (n + 1) u = u % 256 :: toBytesLE n (u / 256) := by
  unfold toBytesLE
  rw [List.range_succ_eq_map, List.map_cons, List.map_map]
  congr 1
  · simp
  · apply List.map_congr_left
    intro i _
    simp only [Function.comp_apply]
    rw [Nat.div_div_eq_div_mul]
    have hp : 256 * 2 ^ (8 * i) = 2 ^ (8 * Nat.succ i) := by
      rw [Nat.mul_succ, pow_add, Nat.mul_comm]
      norm_num
    rw [hp]

/-- Round trip of the memcpy branches: reassembling the n-byte little-endian
decomposition of u recovers u whenever u fits in n bytes. -/
theorem fromBytesLE_toBytesLE (n : ℕ) (u : ℕ) (h : u < 2 ^ (8 * n)) :
    fromBytesLE (toBytesLE n u) = u := by
  induction n generalizing u with
  | zero =>
    interval_cases u
    rfl
  | succ m ih =>
    rw [toBytesLE_succ]
    unfold fromBytesLE
    rw [ih (u / 256) ?_]
    · exact Nat.mod_add_div u 256
    · have h2 : (2 : ℕ) ^ (8 * (m + 1)) = 2 ^ (8 * m) * 256 := by
        rw [Nat.mul_succ, pow_add]
        norm_num

      rw [Nat.div_lt_iff_lt_mul (by norm_num)]
      calc u < 2 ^ (8 * (m + 1)) := h
      _ = 2 ^ (8 * m) * 256 := h2

/-- Round trip of the runtime (memcpy) branches of to_ne_bytes and
from_ne_bytes for every representable value of a type with 8 * n bits. -/
theorem ne_bytes_roundtrip_memcpy (n : ℕ) (a : ℤ) (hn : 0 < n)
    (h : InRange (8 * n) a) :
    from_ne_bytes (8 * n) (to_ne_bytes (8 * n) a) = a := by
  have hB : 0 < 8 * n := by omega
  have hu : 0 ≤ toUnsigned (8 * n) a := Int.emod_nonneg a (by positivity)
  have hu2 : toUnsigned (8 * n) a < 2 ^ (8 * n) := by
    have := Int.emod_lt_of_pos a (b := 2 ^ (8 * n)) (by positivity)
    exact this
  have hnat : ((toUnsigned (8 * n) a).toNat : ℤ) = toUnsigned (8 * n) a :=
    Int.toNat_of_nonneg hu
  have hlt : (toUnsigned (8 * n) a).toNat < 2 ^ (8 * n) := by
    have hcast : ((2 ^ (8 * n) : ℕ) : ℤ) = (2 : ℤ) ^ (8 * n) := by push_cast; ring
    omega
  unfold from_ne_bytes to_ne_bytes
  rw [Nat.mul_div_cancel_left n (by norm_num)]
  rw [fromBytesLE_toBytesLE n _ hlt, hnat]
  have hw := wrap_eq_self hB h
  unfold wrap at hw
  unfold wrap toUnsigned
  rw [Int.emod_add_emod]
  exact hw

/-- Claim C1 (failing input): in the constant-evaluated branch of
from_ne_bytes every byte is shifted by sizeof(T) - 1 - i bit positions, not
by whole bytes, and host endianness is ignored, so deserializing the
serialization of the 32-bit value 1 yields 8 rather than 1. -/
theorem from_ne_to_ne_bytes_not_identity :
    from_ne_bytes_ce 32 (to_ne_bytes 32 1) = 8 ∧ (8 : ℤ) ≠ 1 ∧
      from_ne_bytes 32 (to_ne_bytes 32 1) = 1 := by
  refine ⟨by decide, by decide, by decide⟩

/- C10 definitions: abs_diff from _sus__signed_abs.  The subtraction there
is written on the signed primitives themselves, so for a type at least as
wide as int it is performed in the signed type, where overflow is undefined
behavior (modelled as none). -/

/-- Subtraction carried out inside the B-bit signed type as C++ evaluates it
for int-sized and wider types: the exact difference when representable,
undefined behavior (none) otherwise. -/
def sub_in_type (B : ℕ) (a b : ℤ) : Option ℤ :=
  if InRange B (a - b) then some (a - b) else none

/-- abs_diff: picks the larger operand by comparison, subtracts in the
signed type and casts the difference to the matching unsigned type. -/
def abs_diff (B : ℕ) (a b : ℤ) : Option ℤ :=
  if b ≤ a then (sub_in_type B a b).map (toUnsigned B)
  else (sub_in_type B b a).map (toUnsigned B)

/-- On pairs whose difference is representable, abs_diff does return the
exact absolute difference. -/
theorem abs_diff_exact_when_no_overflow (B : ℕ) (a b : ℤ) (hB : 0 < B)
    (hab : InRange B (a - b)) (hba : InRange B (b - a)) :
    abs_diff B a b = some |a - b| := by
  have hsplit := two_pow_split hB
  unfold abs_diff sub_in_type
  rcases le_or_lt b a with h | h
  · rw [if_pos h, if_pos hab]
    have h0 : 0 ≤ a - b := by linarith
    have hlt : a - b < 2 ^ B := by
      obtain ⟨-, h2⟩ := hab
      unfold MAX at h2
      have : (0 : ℤ) < 2 ^ (B - 1) := by positivity
      linarith
    simp only [Option.map_some']
    rw [abs_of_nonneg h0]
    unfold toUnsigned
    rw [Int.emod_eq_of_lt h0 hlt]
  · rw [if_neg (by linarith), if_pos hba]
    have h0 : 0 ≤ b - a := by linarith
    have hlt : b - a < 2 ^ B := by
      obtain ⟨-, h2⟩ := hba
      unfold MAX at h2
      have : (0 : ℤ) < 2 ^ (B - 1) := by positivity
      linarith
    simp only [Option.map_some']
    rw [abs_sub_comm, abs_of_nonneg h0]
    unfold toUnsigned
    rw [Int.emod_eq_of_lt h0 hlt]

/-- Claim C10 (failing input): at a = MAX, b = MIN of the 32-bit type the
subtraction a - b overflows the signed type, undefined behavior, instead of
producing the absolute difference 2 ^ 32 - 1 the claim promises. -/
theorem abs_diff_overflows_at_extremes :
    abs_diff 32 (MAX 32) (MIN 32) = none ∧ |MAX 32 - MIN 32| = 2 ^ 32 - 1 := by
  refine ⟨by decide, by decide⟩

/- Float model for C8 and C9.  A float value is NaN (payloads conflated),
an infinity, or a finite value; the two IEEE zeros are conflated because
every comparison involved here treats them as equal.  IEEE comparisons are
false whenever either side is NaN. -/

/-- Shallow model of an IEEE floating point value. -/
inductive Fl where
  | nan : Fl
  | neginf : Fl
  | fin : ℚ → Fl
  | posinf : Fl
deriving DecidableEq

/-- is_nan classification predicate of the float type. -/
def Fl.isNan : Fl → Bool
  | Fl.nan => true
  | _ => false

/-- IEEE comparison x <= y on the model: false when either side is NaN. -/
def Fl.fle : Fl → Fl → Bool
  | Fl.nan, _ => false
  | _, Fl.nan => false
  | Fl.neginf, _ => true
  | _, Fl.posinf => true
  | Fl.posinf, _ => false
  | _, Fl.neginf => false
  | Fl.fin a, Fl.fin b => decide (a ≤ b)

/-- IEEE comparison x < y on the model: false when either side is NaN. -/
def Fl.flt : Fl → Fl → Bool
  | Fl.nan, _ => false
  | _, Fl.nan => false
  | Fl.neginf, Fl.neginf => false
  | Fl.neginf, _ => true
  | _, Fl.neginf => false
  | Fl.posinf, _ => false
  | _, Fl.posinf => true
  | Fl.fin a, Fl.fin b => decide (a < b)

theorem fle_false_iff_flt {p q : Fl} (hp : p.isNan = false) (hq : q.isNan = false) :
    Fl.fle p q = false ↔ Fl.flt q p = true := by
  cases p <;> cases q <;>
    simp_all [Fl.fle, Fl.flt, Fl.isNan, not_le]

theorem flt_below_min_not_above_max {x mn mx : Fl} (h1 : Fl.fle mn mx = true)
    (h2 : Fl.flt x mn = true) : Fl.flt mx x = false := by
  cases x <;> cases mn <;> cases mx <;>
    simp_all [Fl.fle, Fl.flt]
  all_goals linarith

/-- Comparison against NaN on the right is always false. -/
theorem flt_nan_right (p : Fl) : Fl.flt p Fl.nan = false := by
  cases p <;> rfl

/-- Comparison against NaN on the left is always false. -/
theorem flt_nan_left (p : Fl) : Fl.flt Fl.nan p = false := by
  cases p <;> rfl

/- C8 definitions: clamp from the float methods.  The float_clamp intrinsic
is not in the sources at hand and is modelled from the spec. -/

/-- Modelled from the spec: the missing __private::float_clamp intrinsic,
with bounds already known valid: returns max if self is greater than max,
min if self is less than min, otherwise self, and preserves NaN in the
receiver. -/
def float_clamp (x mn mx : Fl) : Fl :=
  if x.isNan then Fl.nan
  else if Fl.flt mx x then mx
  else if Fl.flt x mn then mn
  else x

/-- clamp of the float type: sus::check that neither bound is NaN and that
min <= max (panic modelled as none), then float_clamp. -/
def clamp (x mn mx : Fl) : Option Fl :=
  if (!mn.isNan && !mx.isNan && mn.fle mx) = true then some (float_clamp x mn mx)
  else none

/-- Claim C8: clamp panics exactly when a bound is NaN or min > max; with
valid bounds it returns max when x > max, min when x < min, x otherwise,
and NaN in gives NaN out. -/
theorem clamp_panic_iff_invalid_bounds (x mn mx : Fl) :
    (clamp x mn mx = none ↔
      (mn.isNan = true ∨ mx.isNan = true ∨ Fl.flt mx mn = true)) ∧
    (mn.isNan = false → mx.isNan = false → Fl.fle mn mx = true →
      (x.isNan = true → clamp x mn mx = some Fl.nan) ∧
      (Fl.flt mx x = true → clamp x mn mx = some mx) ∧
      (Fl.flt x mn = true → clamp x mn mx = some mn) ∧
      (x.isNan = false → Fl.flt mx x = false → Fl.flt x mn = false →
        clamp x mn mx = some x)) := by
  constructor
  · unfold clamp
    by_cases h1 : mn.isNan = true
    · simp [h1]
    · rw [Bool.not_eq_true] at h1
      by_cases h2 : mx.isNan = true
      · simp [h1, h2]
      · rw [Bool.not_eq_true] at h2
        by_cases h3 : Fl.fle mn mx = true
        · simp [h1, h2, h3]
          cases hf : Fl.flt mx mn
          · rfl
          · have hcontra := (fle_false_iff_flt h1 h2).mpr hf
            rw [h3] at hcontra
            exact Bool.noConfusion hcontra
        · rw [Bool.not_eq_true] at h3
          have hflt := (fle_false_iff_flt h1 h2).mp h3
          simp [h1, h2, h3, hflt]
  · intro h1 h2 h3
    have hcheck : (!mn.isNan && !mx.isNan && mn.fle mx) = true := by
      rw [h1, h2, h3]
      rfl
    refine ⟨?_, ?_, ?_, ?_⟩
    · intro hx
      unfold clamp float_clamp
      rw [if_pos hcheck, hx]
      rfl
    · intro hgt
      have hx : x.isNan = false := by
        cases x
        · rw [flt_nan_right] at hgt
          exact Bool.noConfusion hgt
        all_goals rfl
      unfold clamp float_clamp
      rw [if_pos hcheck, hx]
      simp [hgt]
    · intro hlt
      have hx : x.isNan = false := by
        cases x
        · rw [flt_nan_left] at hlt
          exact Bool.noConfusion hlt
        all_goals rfl
      have hno : Fl.flt mx x = false := flt_below_min_not_above_max h3 hlt
      unfold clamp float_clamp
      rw [if_pos hcheck, hx]
      simp [hno, hlt]
    · intro hx hno hnl
      unfold clamp float_clamp
      rw [if_pos hcheck, hx]
      simp [hno, hnl]

/-- Witness for C8: clamping 5 into the valid interval from 1 to 10 does not
panic and returns 5 itself. -/
theorem clamp_panic_iff_invalid_bounds_witness :
    (Fl.fin 5).isNan = false ∧
      clamp (Fl.fin 5) (Fl.fin 1) (Fl.fin 10) = some (Fl.fin 5) :=
  ⟨rfl, ((clamp_panic_iff_invalid_bounds (Fl.fin 5) (Fl.fin 1) (Fl.fin 10)).2
    rfl rfl (by decide)).2.2.2 rfl (by decide) (by decide)⟩

/- C9 definitions: asinh from the float methods in the sources.  The
standard library asinh the wrapper delegates to is modelled as a function
parameter that, per the spec, has no domain restriction: it returns a
non-NaN value on every finite non-NaN input. -/

/-- asinh as written in the sources: return the NAN constant when the value
is below -1, otherwise delegate to the standard library asinh. -/
def asinh_impl (stdAsinh : Fl → Fl) (x : Fl) : Fl :=
  if Fl.flt x (Fl.fin (-1)) = true then Fl.nan else stdAsinh x

/-- Claim C9 (failing input): the asinh wrapper rejects every input below -1
with NaN although the inverse hyperbolic sine is total, so at x = -2 the
code returns NaN while the delegation the claim describes returns the
non-NaN standard asinh value. -/
theorem asinh_nan_below_neg_one (stdAsinh : Fl → Fl)
    (hstd : ∀ q : ℚ, (stdAsinh (Fl.fin q)).isNan = false) :
    asinh_impl stdAsinh (Fl.fin (-2)) = Fl.nan ∧
      (stdAsinh (Fl.fin (-2))).isNan = false := by
  constructor
  · have hc : Fl.flt (Fl.fin (-2)) (Fl.fin (-1)) = true := by decide
    unfold asinh_impl
    rw [if_pos hc]
  · exact hstd (-2)

/-- Witness for C9 with the constant non-NaN function standing in for the
standard library asinh. -/
theorem asinh_nan_below_neg_one_witness :
    asinh_impl (fun _ => Fl.fin 0) (Fl.fin (-2)) = Fl.nan ∧
      ((fun (_ : Fl) => Fl.fin 0) (Fl.fin (-2))).isNan = false :=
  asinh_nan_below_neg_one (fun _ => Fl.fin 0) (fun _ => rfl)

end Subspace
